import Mathlib

/-!
Shallow embedding of the AllyieModel question generator
(`src/question_generator.py`): the response-recovery pipeline
(`_extract_json`, `_parse_mcq`, `_parse_fillup`, `_parse_coding`),
the fallback generators, the service-call wrapper (`_call_ollama`)
and the generation entry points, together with theorems checking the
specification's claims about them.

Modelling conventions:
* Decoded JSON values are the inductive `Json` (numbers as integers,
  which suffices for every claim considered here).
* Python dicts produced by `json.loads` are association lists with
  first-match lookup (decoded dicts have unique keys).
* `json.loads` itself is the Python standard library, not repository
  code; it is passed as a parameter `loads : String → Option Json`
  (`none` models a raised `json.JSONDecodeError`).  Theorems that
  quantify over raw text quantify over `loads` as well, covering every
  possible parse outcome.
* Python exceptions are modelled with `Except String`; functions that
  cannot raise keep plain result types.
* `re`'s `\s` and `str.strip` use the ASCII whitespace set, which is
  what Python uses on ASCII text.
-/

namespace AllyieModel

/-- Decoded JSON values, as returned by `json.loads`. -/
inductive Json where
  | null
  | bool (b : Bool)
  | num (n : Int)
  | str (s : String)
  | arr (elems : List Json)
  | obj (fields : List (String × Json))

/-- Python truthiness of a decoded JSON value (`if validated["question"]`). -/
def Json.truthy : Json → Bool
  | .null => false
  | .bool b => b
  | .num n => n != 0
  | .str s => s != ""
  | .arr l => !l.isEmpty
  | .obj f => !f.isEmpty

/-- A validated record: the dict literal built by the parse and fallback
functions (ordered keys, heterogeneous values). -/
abbrev Record := List (String × Json)

/-- `d.get(k, dflt)` on a decoded dict. -/
def dictGet (q : List (String × Json)) (k : String) (dflt : Json) : Json :=
  match q.find? (fun p => p.1 = k) with
  | some p => p.2
  | none => dflt

/-- `k in d` on a decoded dict. -/
def dictHas (q : List (String × Json)) (k : String) : Bool :=
  (q.find? (fun p => p.1 = k)).isSome

/-- Field lookup on a built record (`r[k]`, as an `Option`). -/
def recGet (r : Record) (k : String) : Option Json :=
  (r.find? (fun p => p.1 = k)).map (fun p => p.2)

/-- Truthiness of a record field (missing fields count as falsy). -/
def recTruthy (r : Record) (k : String) : Bool :=
  match recGet r k with
  | some v => v.truthy
  | none => false

/-- ASCII whitespace, as matched by Python's `\s` and `str.strip`. -/
def isPySpace (c : Char) : Bool :=
  c = ' ' || c = '\t' || c = '\n' || c = '\r' ||
  c = Char.ofNat 11 || c = Char.ofNat 12

/-- `str.strip()` on a character list. -/
def pyStripList (l : List Char) : List Char :=
  ((l.dropWhile isPySpace).reverse.dropWhile isPySpace).reverse

/-- `str.strip()`. -/
def pyStrip (s : String) : String :=
  (pyStripList s.toList).asString

/-- `.strip()` on a decoded JSON value: succeeds only on strings, any
other value raises `AttributeError` (modelled as `Except.error`). -/
def jsonStrip : Json → Except String Json
  | .str s => .ok (.str (pyStrip s))
  | _ => .error "AttributeError: object has no attribute strip"

/-- `re.sub(pat + r'\s*', '', s)` for a literal pattern `pat`:
left-to-right scan replacing each non-overlapping occurrence of the
literal followed by a maximal whitespace run.  `fuel` bounds the
recursion; callers pass the list length, which always suffices. -/
def subLitWsAux (pat : List Char) : Nat → List Char → List Char
  | 0, _ => []
  | _ + 1, [] => []
  | fuel + 1, c :: rest =>
    if pat ≠ [] ∧ pat.isPrefixOf (c :: rest) then
      subLitWsAux pat fuel (((c :: rest).drop pat.length).dropWhile isPySpace)
    else
      c :: subLitWsAux pat fuel rest

/-- `re.sub(pat + r'\s*', '', s)` for a literal pattern. -/
def subLitWs (pat : List Char) (l : List Char) : List Char :=
  subLitWsAux pat l.length l

/-- The opening-brace character, written by code point. -/
def lbrace : Char := Char.ofNat 123

/-- The closing-brace character, written by code point. -/
def rbrace : Char := Char.ofNat 125

/-- The fence pattern with a `json` language tag. -/
def fenceJsonPat : List Char := "```json".toList

/-- The bare fence pattern. -/
def fencePat : List Char := "```".toList

/-- The two `re.sub` calls of `_extract_json`: remove every
```` ```json ```` and then every ```` ``` ````, each with trailing
whitespace. -/
def stripFences (l : List Char) : List Char :=
  subLitWs fencePat (subLitWs fenceJsonPat l)

/-- Prefix of `l` up to and including the last occurrence of `c`
(empty when `c` does not occur). -/
def takeToLast (c : Char) : List Char → List Char
  | [] => []
  | x :: xs =>
    if c ∈ xs then x :: takeToLast c xs
    else if x = c then [x] else []

/-- `re.search(r'(\[.*\]|\{.*\})', s, re.DOTALL)`: the scan stops at the
first position holding `[` with a later `]`, or the brace analogue, and
the greedy `.*` extends the match to the last closing bracket of that
kind. -/
def findSpan : List Char → Option (List Char)
  | [] => none
  | c :: rest =>
    if c = '[' ∧ ']' ∈ rest then some ('[' :: takeToLast ']' rest)
    else if c = lbrace ∧ rbrace ∈ rest then some (lbrace :: takeToLast rbrace rest)
    else findSpan rest

/-- `QuestionGenerator._extract_json`: drop fences, return the first
bracketed span if any, otherwise the whole stripped text. -/
def extract_json (raw : String) : String :=
  match findSpan (stripFences raw.toList) with
  | some span => span.asString
  | none => pyStrip (stripFences raw.toList).asString

/-! ## Per-kind validation, loops and fallbacks -/

/-- The `validated` dict built for one MCQ element (`_parse_mcq`),
`i` being the element's 1-based position in the parsed array. -/
def validatedMcq (topic difficulty : String) (i : Nat) (q : List (String × Json)) : Record :=
  [("id", dictGet q "id" (.num i)),
   ("topic", dictGet q "topic" (.str topic)),
   ("difficulty", dictGet q "difficulty" (.str difficulty)),
   ("type", .str "mcq"),
   ("question", dictGet q "question" (.str "")),
   ("options", dictGet q "options" (.obj [])),
   ("correct_answer", dictGet q "correct_answer" (.str "A")),
   ("explanation", dictGet q "explanation" (.str ""))]

/-- The keep check of `_parse_mcq`:
`if validated["question"] and validated["options"]`. -/
def mcqKeep (v : Record) : Bool :=
  recTruthy v "question" && recTruthy v "options"

/-- The validation loop of `_parse_mcq` over a parsed array
(`for i, q in enumerate(parsed, 1)`); non-dict elements are skipped but
still advance the position counter. -/
def mcqLoop (topic difficulty : String) : Nat → List Json → List Record
  | _, [] => []
  | i, .obj f :: rest =>
    let v := validatedMcq topic difficulty i f
    if mcqKeep v then v :: mcqLoop topic difficulty (i + 1) rest
    else mcqLoop topic difficulty (i + 1) rest
  | i, _ :: rest => mcqLoop topic difficulty (i + 1) rest

/-- `_generate_fallback_mcq`. -/
def fallbackMcq (topic difficulty : String) (count : Nat) : List Record :=
  (List.range count).map (fun (i : Nat) =>
    [("id", .num (i + 1)),
     ("topic", .str topic),
     ("difficulty", .str difficulty),
     ("type", .str "mcq"),
     ("question", .str ("What is an important concept in " ++ topic ++
        "? (Question " ++ toString (i + 1) ++ ")")),
     ("options", .obj [("A", .str "Option A"), ("B", .str "Option B"),
                       ("C", .str "Option C"), ("D", .str "Option D")]),
     ("correct_answer", .str "A"),
     ("explanation", .str "This is a fallback question. Please regenerate for better quality.")])

/-- `_parse_mcq` after `json.loads`: `parsed = none` models a raised
`json.JSONDecodeError` (caught, leading to fallback). -/
def parseMcqJson (topic difficulty : String) (count : Nat) : Option Json → List Record
  | some (.arr l) =>
    let valid := mcqLoop topic difficulty 1 l
    if valid.isEmpty then fallbackMcq topic difficulty count else valid
  | some (.obj f) =>
    let v := validatedMcq topic difficulty 1 f
    if mcqKeep v then [v] else fallbackMcq topic difficulty count
  | _ => fallbackMcq topic difficulty count

/-- `QuestionGenerator._parse_mcq`. -/
def parse_mcq (loads : String → Option Json) (raw topic difficulty : String)
    (count : Nat) : List Record :=
  parseMcqJson topic difficulty count (loads (extract_json raw))

/-- The `validated` dict built for one fillup element (`_parse_fillup`). -/
def validatedFillup (topic difficulty : String) (i : Nat) (q : List (String × Json)) : Record :=
  [("id", dictGet q "id" (.num i)),
   ("topic", dictGet q "topic" (.str topic)),
   ("difficulty", dictGet q "difficulty" (.str difficulty)),
   ("type", .str "fillup"),
   ("question", dictGet q "question" (.str "")),
   ("correct_word", dictGet q "correct_word" (.str "")),
   ("hint", dictGet q "hint" (.str "")),
   ("explanation", dictGet q "explanation" (.str ""))]

/-- The keep check of `_parse_fillup`:
`if validated["question"] and validated["correct_word"]`. -/
def fillupKeep (v : Record) : Bool :=
  recTruthy v "question" && recTruthy v "correct_word"

/-- The validation loop of `_parse_fillup` over a parsed array. -/
def fillupLoop (topic difficulty : String) : Nat → List Json → List Record
  | _, [] => []
  | i, .obj f :: rest =>
    let v := validatedFillup topic difficulty i f
    if fillupKeep v then v :: fillupLoop topic difficulty (i + 1) rest
    else fillupLoop topic difficulty (i + 1) rest
  | i, _ :: rest => fillupLoop topic difficulty (i + 1) rest

/-- `_generate_fallback_fillup`. -/
def fallbackFillup (topic difficulty : String) (count : Nat) : List Record :=
  (List.range count).map (fun (i : Nat) =>
    [("id", .num (i + 1)),
     ("topic", .str topic),
     ("difficulty", .str difficulty),
     ("type", .str "fillup"),
     ("question", .str ("In " ++ topic ++ ", ___ is an important concept (Question " ++
        toString (i + 1) ++ ")")),
     ("correct_word", .str "placeholder"),
     ("hint", .str "Key concept"),
     ("explanation", .str "This is a fallback question. Please regenerate for better quality.")])

/-- `_parse_fillup` after `json.loads`. -/
def parseFillupJson (topic difficulty : String) (count : Nat) : Option Json → List Record
  | some (.arr l) =>
    let valid := fillupLoop topic difficulty 1 l
    if valid.isEmpty then fallbackFillup topic difficulty count else valid
  | some (.obj f) =>
    let v := validatedFillup topic difficulty 1 f
    if fillupKeep v then [v] else fallbackFillup topic difficulty count
  | _ => fallbackFillup topic difficulty count

/-- `QuestionGenerator._parse_fillup`. -/
def parse_fillup (loads : String → Option Json) (raw topic difficulty : String)
    (count : Nat) : List Record :=
  parseFillupJson topic difficulty count (loads (extract_json raw))

/-- The shape of the `validated` dict of `_parse_coding`, given the
five already-stripped text values. -/
def codingRecord (topic difficulty : String) (i : Nat) (q : List (String × Json))
    (question input output constraints expectedEx : Json) : Record :=
  [("id", dictGet q "id" (.num i)),
   ("topic", dictGet q "topic" (.str topic)),
   ("difficulty", dictGet q "difficulty" (.str difficulty)),
   ("type", .str "coding"),
   ("question", question),
   ("input", input),
   ("output", output),
   ("constraints", constraints),
   ("expected_output_example", expectedEx),
   ("time_limit_seconds", dictGet q "time_limit_seconds" (.num 120))]

/-- The `validated` dict built for one coding element (`_parse_coding`).
The five `.strip()` calls raise `AttributeError` on non-string values,
which `_parse_coding`'s `except` clause does not catch. -/
def validatedCoding (topic difficulty : String) (i : Nat)
    (q : List (String × Json)) : Except String Record :=
  match jsonStrip (dictGet q "question" (.str "")),
        jsonStrip (dictGet q "input" (.str "")),
        jsonStrip (dictGet q "output" (.str "")),
        jsonStrip (dictGet q "constraints" (.str "")),
        jsonStrip (dictGet q "expected_output_example" (.str "")) with
  | .ok a, .ok b, .ok c, .ok e, .ok g =>
    .ok (codingRecord topic difficulty i q a b c e g)
  | .error err, _, _, _, _ => .error err
  | _, .error err, _, _, _ => .error err
  | _, _, .error err, _, _ => .error err
  | _, _, _, .error err, _ => .error err
  | _, _, _, _, .error err => .error err

/-- The keep check of `_parse_coding`:
`if validated["question"] and validated["input"] and validated["output"]`. -/
def codingKeep (v : Record) : Bool :=
  recTruthy v "question" && recTruthy v "input" && recTruthy v "output"

/-- The validation loop of `_parse_coding` over a parsed array; an
uncaught `AttributeError` aborts the whole loop. -/
def codingLoop (topic difficulty : String) : Nat → List Json → Except String (List Record)
  | _, [] => .ok []
  | i, .obj f :: rest =>
    match validatedCoding topic difficulty i f with
    | .error e => .error e
    | .ok v =>
      match codingLoop topic difficulty (i + 1) rest with
      | .error e => .error e
      | .ok tail => if codingKeep v then .ok (v :: tail) else .ok tail
  | i, _ :: rest => codingLoop topic difficulty (i + 1) rest

/-- The `time_limits` dict lookup of `_generate_fallback_coding`:
`time_limits.get(difficulty, 120)`. -/
def timeLimits (difficulty : String) : Int :=
  if difficulty = "easy" then 120
  else if difficulty = "medium" then 180
  else if difficulty = "hard" then 300
  else 120

/-- `_generate_fallback_coding`.  Note the field names it actually
emits: `function_name`, `test_input`, `expected_output` — there are no
`input` or `output` keys. -/
def fallbackCoding (topic difficulty : String) (count : Nat) : List Record :=
  (List.range count).map (fun (i : Nat) =>
    [("id", .num (i + 1)),
     ("topic", .str topic),
     ("difficulty", .str difficulty),
     ("type", .str "coding"),
     ("question", .str ("Write a function for " ++ topic ++ " (Question " ++
        toString (i + 1) ++ ")")),
     ("function_name", .str ("solve_" ++ toString (i + 1))),
     ("test_input", .str "input"),
     ("expected_output", .str "output"),
     ("time_limit_seconds", .num (timeLimits difficulty))])

/-- `_parse_coding` after `json.loads`: a decode failure or a
non-list/non-dict shape (`ValueError`) is caught and falls back; a
single dict is normalised to a one-element list; a kept non-empty list
is truncated to the first `count`; an `AttributeError` from the loop
escapes. -/
def parseCodingJson (topic difficulty : String) (count : Nat) :
    Option Json → Except String (List Record)
  | none => .ok (fallbackCoding topic difficulty count)
  | some j =>
    let asList : Option (List Json) :=
      match j with
      | .obj f => some [Json.obj f]
      | .arr l => some l
      | _ => none
    match asList with
    | none => .ok (fallbackCoding topic difficulty count)
    | some l =>
      match codingLoop topic difficulty 1 l with
      | .error e => .error e
      | .ok valid =>
        if valid.isEmpty then .ok (fallbackCoding topic difficulty count)
        else .ok (valid.take count)

/-- `QuestionGenerator._parse_coding`. -/
def parse_coding (loads : String → Option Json) (raw topic difficulty : String)
    (count : Nat) : Except String (List Record) :=
  parseCodingJson topic difficulty count (loads (extract_json raw))

/-! ## Service call and generation entry points -/

/-- A completed HTTP response from the completion service:
`responseText` models `response.json().get("response", "")` (a string
in the Ollama API, `""` when the key is absent). -/
structure HttpResponse where
  status_code : Nat
  responseText : String

/-- Outcome of the `requests.post` call: either a completed response or
a raised `requests.exceptions.Timeout`. -/
inductive CallResult where
  | completed (r : HttpResponse)
  | timedOut

/-- `QuestionGenerator._call_ollama`: a timeout is re-raised, a
non-200 status raises `Exception(f"Ollama returned {status}")` which
the `except` clause re-raises, and a 200 response yields its
`response` field. -/
def call_ollama : CallResult → Except String String
  | .timedOut => .error "requests.exceptions.Timeout"
  | .completed r =>
    if r.status_code ≠ 200 then .error ("Ollama returned " ++ toString r.status_code)
    else .ok r.responseText

/-- `QuestionGenerator.generate_mcq` (the question list it returns; the
elapsed-time component is real-time measurement and is not modelled).
There is no exception handling around `_call_ollama`. -/
def generate_mcq (loads : String → Option Json) (svc : CallResult)
    (topic difficulty : String) (count : Nat) : Except String (List Record) :=
  (call_ollama svc).map (fun raw => parse_mcq loads raw topic difficulty count)

/-- `QuestionGenerator.generate_fillup` (question list only). -/
def generate_fillup (loads : String → Option Json) (svc : CallResult)
    (topic difficulty : String) (count : Nat) : Except String (List Record) :=
  (call_ollama svc).map (fun raw => parse_fillup loads raw topic difficulty count)

/-- `QuestionGenerator.generate_coding` (question list only). -/
def generate_coding (loads : String → Option Json) (svc : CallResult)
    (topic difficulty : String) (count : Nat) : Except String (List Record) :=
  (call_ollama svc).bind (fun raw => parse_coding loads raw topic difficulty count)

/-! ## Claim-side notions -/

/-- Position `i` of `l` opens a bracketed span the Stage-A regex can
match: a `[` with a later `]`, or a brace with a later closing brace. -/
def opensBracket (l : List Char) (i : Nat) : Prop :=
  (l.get? i = some '[' ∧ ∃ j, i < j ∧ l.get? j = some ']') ∨
  (l.get? i = some lbrace ∧ ∃ j, i < j ∧ l.get? j = some rbrace)

/-- The closing bracket matching an opening one. -/
def closerOf (c : Char) : Char :=
  if c = '[' then ']' else rbrace

/-- One step of `_parse_mcq`'s loop, as a per-element function of the
(1-based position, element) pair: `none` when the element is dropped. -/
def mcqStep (topic difficulty : String) (p : Nat × Json) : Option Record :=
  match p.2 with
  | .obj f =>
    let v := validatedMcq topic difficulty p.1 f
    if mcqKeep v then some v else none
  | _ => none

/-- One step of `_parse_fillup`'s loop. -/
def fillupStep (topic difficulty : String) (p : Nat × Json) : Option Record :=
  match p.2 with
  | .obj f =>
    let v := validatedFillup topic difficulty p.1 f
    if fillupKeep v then some v else none
  | _ => none

/-- One step of `_parse_coding`'s loop (total; meaningful on elements
whose text fields do not raise). -/
def codingStep (topic difficulty : String) (p : Nat × Json) : Option Record :=
  match p.2 with
  | .obj f =>
    match validatedCoding topic difficulty p.1 f with
    | .ok v => if codingKeep v then some v else none
    | .error _ => none
  | _ => none

/-- Field `k` of dict `q` is a string or absent (so `.strip()` on the
defaulted read cannot raise). -/
def strOrAbsent (q : List (String × Json)) (k : String) : Prop :=
  ∃ s, dictGet q k (.str "") = .str s

/-- A parsed element is strip-safe for the coding kind: when it is a
dict, each of the five stripped text fields is a string or absent. -/
def codingTextOk (j : Json) : Prop :=
  ∀ f, j = .obj f →
    strOrAbsent f "question" ∧ strOrAbsent f "input" ∧ strOrAbsent f "output" ∧
    strOrAbsent f "constraints" ∧ strOrAbsent f "expected_output_example"

/-- The option labels of an MCQ record (keys of its `options` dict). -/
def optionKeys (r : Record) : List String :=
  match recGet r "options" with
  | some (.obj f) => f.map (fun p => p.1)
  | _ => []

/-- The claim's invariant for an MCQ record: `correct_answer` is one of
its own option labels. -/
def correctAnswerIsLabel (r : Record) : Prop :=
  ∃ s, recGet r "correct_answer" = some (.str s) ∧ s ∈ optionKeys r

/-! ## Concrete sample inputs used by witnesses and counterexamples -/

/-- `json.loads` on text that is not JSON at all (always raises). -/
def loadsNone : String → Option Json := fun _ => none

/-- Raw service text whose single coding element holds a number in its
`question` field. -/
def rawNumQ : String := "[\x7b\"question\": 5, \"input\": \"i\", \"output\": \"o\"\x7d]"

/-- The value `json.loads` decodes `rawNumQ` to. -/
def jsonNumQ : Json :=
  .arr [.obj [("question", .num 5), ("input", .str "i"), ("output", .str "o")]]

/-- `json.loads` restricted to `rawNumQ`. -/
def loadsNumQ : String → Option Json := fun s =>
  if s = rawNumQ then some jsonNumQ else none

/-- Raw service text whose single coding element holds `null` in its
`input` field. -/
def rawNullInput : String := "[\x7b\"question\": \"q\", \"input\": null, \"output\": \"o\"\x7d]"

/-- The value `json.loads` decodes `rawNullInput` to. -/
def jsonNullInput : Json :=
  .arr [.obj [("question", .str "q"), ("input", .null), ("output", .str "o")]]

/-- `json.loads` restricted to `rawNullInput`. -/
def loadsNullInput : String → Option Json := fun s =>
  if s = rawNullInput then some jsonNullInput else none

/-- A parsed coding array whose element has a boolean `question`. -/
def jsonBoolQ : Json :=
  .arr [.obj [("question", .bool true), ("input", .str "i"), ("output", .str "o")]]

/-- A parsed coding array whose valid element omits `time_limit_seconds`. -/
def jsonCodingNoLimit : Json :=
  .arr [.obj [("question", .str "q"), ("input", .str "i"), ("output", .str "o")]]

/-- The record `_parse_coding` keeps from `jsonCodingNoLimit` under
topic `"t"`, difficulty `"hard"`. -/
def recCodingNoLimit : Record :=
  [("id", .num 1), ("topic", .str "t"), ("difficulty", .str "hard"),
   ("type", .str "coding"), ("question", .str "q"), ("input", .str "i"),
   ("output", .str "o"), ("constraints", .str ""),
   ("expected_output_example", .str ""), ("time_limit_seconds", .num 120)]

/-- A parsed MCQ array whose element has options labelled only `B` and
no `correct_answer`. -/
def jsonMcqNoAnswer : Json :=
  .arr [.obj [("question", .str "q"), ("options", .obj [("B", .str "x")])]]

/-- The record `_parse_mcq` keeps from `jsonMcqNoAnswer` under topic
`"t"`, difficulty `"easy"`. -/
def recMcqNoAnswer : Record :=
  [("id", .num 1), ("topic", .str "t"), ("difficulty", .str "easy"),
   ("type", .str "mcq"), ("question", .str "q"),
   ("options", .obj [("B", .str "x")]), ("correct_answer", .str "A"),
   ("explanation", .str "")]

/-- The single fallback coding record for topic `"algebra"`, difficulty
`"easy"` — note the absence of `input` and `output` keys. -/
def recFallbackCoding : Record :=
  [("id", .num 1), ("topic", .str "algebra"), ("difficulty", .str "easy"),
   ("type", .str "coding"),
   ("question", .str "Write a function for algebra (Question 1)"),
   ("function_name", .str "solve_1"), ("test_input", .str "input"),
   ("expected_output", .str "output"), ("time_limit_seconds", .num 120)]

/-- Raw text mixing an object span and a later array span. -/
def rawObjThenArr : String := "\x7b\"a\": 1\x7d [2]"

/-- The single fallback MCQ record for topic `"t"`, difficulty `"e"`. -/
def mcqWitnessRec : Record :=
  [("id", .num 1), ("topic", .str "t"), ("difficulty", .str "e"),
   ("type", .str "mcq"),
   ("question", .str "What is an important concept in t? (Question 1)"),
   ("options", .obj [("A", .str "Option A"), ("B", .str "Option B"),
                     ("C", .str "Option C"), ("D", .str "Option D")]),
   ("correct_answer", .str "A"),
   ("explanation", .str "This is a fallback question. Please regenerate for better quality.")]

/-! ## Helper lemmas -/

theorem dictGet_of_not_has {q : List (String × Json)} {k : String} {dflt : Json}
    (h : dictHas q k = false) : dictGet q k dflt = dflt := by
  unfold dictHas at h
  unfold dictGet
  cases hf : List.find? (fun p => p.1 = k) q with
  | none => rfl
  | some p => rw [hf] at h; simp at h

theorem validatedCoding_ok_shape {t d : String} {i : Nat} {q : List (String × Json)}
    {v : Record} (h : validatedCoding t d i q = .ok v) :
    ∃ a b c e g, v = codingRecord t d i q a b c e g := by
  unfold validatedCoding at h
  split at h
  · injection h with h
    exact ⟨_, _, _, _, _, h.symm⟩
  all_goals exact Except.noConfusion h

theorem validatedCoding_isOk_of_textOk {t d : String} {i : Nat} {q : List (String × Json)}
    (h1 : strOrAbsent q "question") (h2 : strOrAbsent q "input")
    (h3 : strOrAbsent q "output") (h4 : strOrAbsent q "constraints")
    (h5 : strOrAbsent q "expected_output_example") :
    ∃ v, validatedCoding t d i q = .ok v := by
  obtain ⟨s1, e1⟩ := h1
  obtain ⟨s2, e2⟩ := h2
  obtain ⟨s3, e3⟩ := h3
  obtain ⟨s4, e4⟩ := h4
  obtain ⟨s5, e5⟩ := h5
  refine ⟨codingRecord t d i q (.str (pyStrip s1)) (.str (pyStrip s2)) (.str (pyStrip s3))
    (.str (pyStrip s4)) (.str (pyStrip s5)), ?_⟩
  unfold validatedCoding
  rw [e1, e2, e3, e4, e5]
  rfl

theorem fallbackMcq_fields {t d : String} {c : Nat} {r : Record}
    (h : r ∈ fallbackMcq t d c) :
    recGet r "type" = some (.str "mcq") ∧ recGet r "correct_answer" = some (.str "A") ∧
    optionKeys r = ["A", "B", "C", "D"] := by
  simp only [fallbackMcq, List.mem_map, List.mem_range] at h
  obtain ⟨i, -, rfl⟩ := h
  exact ⟨rfl, rfl, rfl⟩

theorem fallbackFillup_fields {t d : String} {c : Nat} {r : Record}
    (h : r ∈ fallbackFillup t d c) :
    recGet r "type" = some (.str "fillup") := by
  simp only [fallbackFillup, List.mem_map, List.mem_range] at h
  obtain ⟨i, -, rfl⟩ := h
  rfl

theorem fallbackCoding_fields {t d : String} {c : Nat} {r : Record}
    (h : r ∈ fallbackCoding t d c) :
    recGet r "type" = some (.str "coding") ∧
    recGet r "time_limit_seconds" = some (.num (timeLimits d)) ∧
    recGet r "input" = none ∧ recGet r "output" = none := by
  simp only [fallbackCoding, List.mem_map, List.mem_range] at h
  obtain ⟨i, -, rfl⟩ := h
  exact ⟨rfl, rfl, rfl, rfl⟩

theorem fallbackMcq_length (t d : String) (c : Nat) : (fallbackMcq t d c).length = c := by
  unfold fallbackMcq
  rw [List.length_map, List.length_range]

theorem fallbackFillup_length (t d : String) (c : Nat) : (fallbackFillup t d c).length = c := by
  unfold fallbackFillup
  rw [List.length_map, List.length_range]

theorem fallbackCoding_length (t d : String) (c : Nat) : (fallbackCoding t d c).length = c := by
  unfold fallbackCoding
  rw [List.length_map, List.length_range]

theorem mcqStep_some {t d : String} {p : Nat × Json} {r : Record}
    (h : mcqStep t d p = some r) :
    ∃ f, p.2 = .obj f ∧ r = validatedMcq t d p.1 f ∧ mcqKeep r = true := by
  obtain ⟨i, j⟩ := p
  cases j with
  | obj f =>
    simp only [mcqStep] at h
    split at h
    · injection h with h
      subst h
      rename_i hk
      exact ⟨f, rfl, rfl, hk⟩
    · exact Option.noConfusion h
  | null => exact Option.noConfusion h
  | bool b => exact Option.noConfusion h
  | num n => exact Option.noConfusion h
  | str s => exact Option.noConfusion h
  | arr l => exact Option.noConfusion h

theorem fillupStep_some {t d : String} {p : Nat × Json} {r : Record}
    (h : fillupStep t d p = some r) :
    ∃ f, p.2 = .obj f ∧ r = validatedFillup t d p.1 f ∧ fillupKeep r = true := by
  obtain ⟨i, j⟩ := p
  cases j with
  | obj f =>
    simp only [fillupStep] at h
    split at h
    · injection h with h
      subst h
      rename_i hk
      exact ⟨f, rfl, rfl, hk⟩
    · exact Option.noConfusion h
  | null => exact Option.noConfusion h
  | bool b => exact Option.noConfusion h
  | num n => exact Option.noConfusion h
  | str s => exact Option.noConfusion h
  | arr l => exact Option.noConfusion h

theorem mcqLoop_eq_filterMap (t d : String) :
    ∀ (l : List Json) (i : Nat),
      mcqLoop t d i l = (List.enumFrom i l).filterMap (mcqStep t d) := by
  intro l
  induction l with
  | nil => intro i; rfl
  | cons hd tl ih =>
    intro i
    cases hd <;>
      simp only [mcqLoop, List.enumFrom, List.filterMap_cons, mcqStep] <;>
      try exact ih (i + 1)
    split <;> simp [ih (i + 1)]

theorem fillupLoop_eq_filterMap (t d : String) :
    ∀ (l : List Json) (i : Nat),
      fillupLoop t d i l = (List.enumFrom i l).filterMap (fillupStep t d) := by
  intro l
  induction l with
  | nil => intro i; rfl
  | cons hd tl ih =>
    intro i
    cases hd <;>
      simp only [fillupLoop, List.enumFrom, List.filterMap_cons, fillupStep] <;>
      try exact ih (i + 1)
    split <;> simp [ih (i + 1)]

theorem codingLoop_eq_filterMap (t d : String) :
    ∀ (l : List Json), (∀ j ∈ l, codingTextOk j) → ∀ i : Nat,
      codingLoop t d i l = .ok ((List.enumFrom i l).filterMap (codingStep t d)) := by
  intro l
  induction l with
  | nil => intro _ i; rfl
  | cons hd tl ih =>
    intro hok i
    have htl : ∀ j ∈ tl, codingTextOk j :=
      fun j hj => hok j (List.mem_cons_of_mem hd hj)
    cases hd with
    | obj f =>
      have hf := hok (.obj f) (List.mem_cons_self _ _) f rfl
      obtain ⟨v, hv⟩ :=
        validatedCoding_isOk_of_textOk (t := t) (d := d) (i := i)
          hf.1 hf.2.1 hf.2.2.1 hf.2.2.2.1 hf.2.2.2.2
      simp only [codingLoop, List.enumFrom, List.filterMap_cons, codingStep, hv,
        ih htl (i + 1)]
      split <;> rfl
    | null =>
      simpa only [codingLoop, List.enumFrom, List.filterMap_cons, codingStep]
        using ih htl (i + 1)
    | bool b =>
      simpa only [codingLoop, List.enumFrom, List.filterMap_cons, codingStep]
        using ih htl (i + 1)
    | num n =>
      simpa only [codingLoop, List.enumFrom, List.filterMap_cons, codingStep]
        using ih htl (i + 1)
    | str s =>
      simpa only [codingLoop, List.enumFrom, List.filterMap_cons, codingStep]
        using ih htl (i + 1)
    | arr l' =>
      simpa only [codingLoop, List.enumFrom, List.filterMap_cons, codingStep]
        using ih htl (i + 1)

theorem codingLoop_ok_type (t d : String) :
    ∀ (l : List Json) (i : Nat) (valid : List Record),
      codingLoop t d i l = .ok valid →
      ∀ r ∈ valid, recGet r "type" = some (.str "coding") := by
  intro l
  induction l with
  | nil =>
    intro i valid h r hr
    injection h with h
    subst h
    cases hr
  | cons hd tl ih =>
    intro i valid h r hr
    cases hd with
    | obj f =>
      simp only [codingLoop] at h
      split at h
      · exact Except.noConfusion h
      · rename_i v hv
        split at h
        · exact Except.noConfusion h
        · rename_i tail htail
          split at h <;> injection h with h <;> subst h
          · rcases List.mem_cons.mp hr with rfl | hr'
            · obtain ⟨a, b, c, e, g, rfl⟩ := validatedCoding_ok_shape hv
              exact rfl
            · exact ih (i + 1) tail htail r hr'
          · exact ih (i + 1) tail htail r hr
    | null => exact ih (i + 1) valid h r hr
    | bool b => exact ih (i + 1) valid h r hr
    | num n => exact ih (i + 1) valid h r hr
    | str s => exact ih (i + 1) valid h r hr
    | arr l' => exact ih (i + 1) valid h r hr

theorem parseMcqJson_type (t d : String) (c : Nat) (oj : Option Json) :
    ∀ r ∈ parseMcqJson t d c oj, recGet r "type" = some (.str "mcq") := by
  intro r hr
  cases oj with
  | none => exact (fallbackMcq_fields hr).1
  | some j =>
    cases j with
    | arr l =>
      simp only [parseMcqJson] at hr
      split at hr
      · exact (fallbackMcq_fields hr).1
      · rw [mcqLoop_eq_filterMap] at hr
        obtain ⟨p, -, hp⟩ := List.mem_filterMap.mp hr
        obtain ⟨f, -, rfl, -⟩ := mcqStep_some hp
        exact rfl
    | obj f =>
      simp only [parseMcqJson] at hr
      split at hr
      · rw [List.mem_singleton.mp hr]
        exact rfl
      · exact (fallbackMcq_fields hr).1
    | null => exact (fallbackMcq_fields hr).1
    | bool b => exact (fallbackMcq_fields hr).1
    | num n => exact (fallbackMcq_fields hr).1
    | str s => exact (fallbackMcq_fields hr).1

theorem parseFillupJson_type (t d : String) (c : Nat) (oj : Option Json) :
    ∀ r ∈ parseFillupJson t d c oj, recGet r "type" = some (.str "fillup") := by
  intro r hr
  cases oj with
  | none => exact fallbackFillup_fields hr
  | some j =>
    cases j with
    | arr l =>
      simp only [parseFillupJson] at hr
      split at hr
      · exact fallbackFillup_fields hr
      · rw [fillupLoop_eq_filterMap] at hr
        obtain ⟨p, -, hp⟩ := List.mem_filterMap.mp hr
        obtain ⟨f, -, rfl, -⟩ := fillupStep_some hp
        exact rfl
    | obj f =>
      simp only [parseFillupJson] at hr
      split at hr
      · rw [List.mem_singleton.mp hr]
        exact rfl
      · exact fallbackFillup_fields hr
    | null => exact fallbackFillup_fields hr
    | bool b => exact fallbackFillup_fields hr
    | num n => exact fallbackFillup_fields hr
    | str s => exact fallbackFillup_fields hr

theorem parseCodingJson_type (t d : String) (c : Nat) (oj : Option Json)
    {l : List Record} (h : parseCodingJson t d c oj = .ok l) :
    ∀ r ∈ l, recGet r "type" = some (.str "coding") := by
  intro r hr
  cases oj with
  | none =>
    injection h with h
    subst h
    exact (fallbackCoding_fields hr).1
  | some j =>
    cases j with
    | arr l' =>
      simp only [parseCodingJson] at h
      split at h
      · exact Except.noConfusion h
      · rename_i valid hloop
        split at h <;> injection h with h <;> subst h
        · exact (fallbackCoding_fields hr).1
        · exact codingLoop_ok_type t d l' 1 valid hloop r (List.mem_of_mem_take hr)
    | obj f =>
      simp only [parseCodingJson] at h
      split at h
      · exact Except.noConfusion h
      · rename_i valid hloop
        split at h <;> injection h with h <;> subst h
        · exact (fallbackCoding_fields hr).1
        · exact codingLoop_ok_type t d [Json.obj f] 1 valid hloop r (List.mem_of_mem_take hr)
    | null =>
      injection h with h
      subst h
      exact (fallbackCoding_fields hr).1
    | bool b =>
      injection h with h
      subst h
      exact (fallbackCoding_fields hr).1
    | num n =>
      injection h with h
      subst h
      exact (fallbackCoding_fields hr).1
    | str s =>
      injection h with h
      subst h
      exact (fallbackCoding_fields hr).1

theorem parseMcqJson_length (t d : String) {c : Nat} (hc : 1 ≤ c) (oj : Option Json) :
    1 ≤ (parseMcqJson t d c oj).length := by
  cases oj with
  | none => rw [show parseMcqJson t d c none = fallbackMcq t d c from rfl,
      fallbackMcq_length]; exact hc
  | some j =>
    cases j with
    | arr l =>
      simp only [parseMcqJson]
      split
      · rw [fallbackMcq_length]; exact hc
      · rename_i hne
        have : mcqLoop t d 1 l ≠ [] := by
          intro hnil
          rw [hnil] at hne
          simp at hne
        have := List.length_pos.mpr this
        omega
    | obj f =>
      simp only [parseMcqJson]
      split
      · simp
      · rw [fallbackMcq_length]; exact hc
    | null => rw [show parseMcqJson t d c (some .null) = fallbackMcq t d c from rfl,
        fallbackMcq_length]; exact hc
    | bool b => rw [show parseMcqJson t d c (some (.bool b)) = fallbackMcq t d c from rfl,
        fallbackMcq_length]; exact hc
    | num n => rw [show parseMcqJson t d c (some (.num n)) = fallbackMcq t d c from rfl,
        fallbackMcq_length]; exact hc
    | str s => rw [show parseMcqJson t d c (some (.str s)) = fallbackMcq t d c from rfl,
        fallbackMcq_length]; exact hc

theorem parseFillupJson_length (t d : String) {c : Nat} (hc : 1 ≤ c) (oj : Option Json) :
    1 ≤ (parseFillupJson t d c oj).length := by
  cases oj with
  | none => rw [show parseFillupJson t d c none = fallbackFillup t d c from rfl,
      fallbackFillup_length]; exact hc
  | some j =>
    cases j with
    | arr l =>
      simp only [parseFillupJson]
      split
      · rw [fallbackFillup_length]; exact hc
      · rename_i hne
        have : fillupLoop t d 1 l ≠ [] := by
          intro hnil
          rw [hnil] at hne
          simp at hne
        have := List.length_pos.mpr this
        omega
    | obj f =>
      simp only [parseFillupJson]
      split
      · simp
      · rw [fallbackFillup_length]; exact hc
    | null => rw [show parseFillupJson t d c (some .null) = fallbackFillup t d c from rfl,
        fallbackFillup_length]; exact hc
    | bool b => rw [show parseFillupJson t d c (some (.bool b)) = fallbackFillup t d c from rfl,
        fallbackFillup_length]; exact hc
    | num n => rw [show parseFillupJson t d c (some (.num n)) = fallbackFillup t d c from rfl,
        fallbackFillup_length]; exact hc
    | str s => rw [show parseFillupJson t d c (some (.str s)) = fallbackFillup t d c from rfl,
        fallbackFillup_length]; exact hc

theorem parseCodingJson_ok_length (t d : String) {c : Nat} (hc : 1 ≤ c) (oj : Option Json)
    {l : List Record} (h : parseCodingJson t d c oj = .ok l) :
    1 ≤ l.length ∧ l.length ≤ c := by
  have hfb : (fallbackCoding t d c).length = c := fallbackCoding_length t d c
  cases oj with
  | none =>
    injection h with h
    subst h
    omega
  | some j =>
    cases j with
    | arr l' =>
      simp only [parseCodingJson] at h
      split at h
      · exact Except.noConfusion h
      · rename_i valid hloop
        split at h <;> injection h with h <;> subst h
        · omega
        · rename_i hne
          have hv : valid ≠ [] := by
            intro hnil
            rw [hnil] at hne
            simp at hne
          have h1 := List.length_pos.mpr hv
          rw [List.length_take]
          omega
    | obj f =>
      simp only [parseCodingJson] at h
      split at h
      · exact Except.noConfusion h
      · rename_i valid hloop
        split at h <;> injection h with h <;> subst h
        · omega
        · rename_i hne
          have hv : valid ≠ [] := by
            intro hnil
            rw [hnil] at hne
            simp at hne
          have h1 := List.length_pos.mpr hv
          rw [List.length_take]
          omega
    | null =>
      injection h with h
      subst h
      omega
    | bool b =>
      injection h with h
      subst h
      omega
    | num n =>
      injection h with h
      subst h
      omega
    | str s =>
      injection h with h
      subst h
      omega

theorem pyStrip_of_all_space {s : String} (h : s.toList.all isPySpace = true) :
    pyStrip s = "" := by
  unfold pyStrip pyStripList
  have h1 : s.toList.dropWhile isPySpace = [] :=
    List.dropWhile_eq_nil_iff.mpr (fun x hx => List.all_eq_true.mp h x hx)
  rw [h1]
  rfl

theorem takeToLast_spec (c : Char) :
    ∀ l : List Char, c ∈ l →
      ∃ k, l.get? k = some c ∧ (∀ j, k < j → l.get? j ≠ some c) ∧
        takeToLast c l = l.take (k + 1) := by
  intro l
  induction l with
  | nil => intro h; cases h
  | cons x xs ih =>
    intro h
    by_cases hc : c ∈ xs
    · obtain ⟨k, h1, h2, h3⟩ := ih hc
      refine ⟨k + 1, by simpa using h1, ?_, ?_⟩
      · intro j hj hjc
        match j, hj with
        | 0, hj => exact absurd hj (by omega)
        | j' + 1, hj =>
          exact h2 j' (by omega) (by simpa using hjc)
      · have heq : takeToLast c (x :: xs) = x :: takeToLast c xs := by
          show (if c ∈ xs then x :: takeToLast c xs else if x = c then [x] else []) =
            x :: takeToLast c xs
          rw [if_pos hc]
        rw [heq, h3]
        rfl
    · have hx : x = c := by
        rcases List.mem_cons.mp h with h' | h'
        · exact h'.symm
        · exact absurd h' hc
      subst hx
      refine ⟨0, by simp, ?_, ?_⟩
      · intro j hj hjc
        match j, hj with
        | j' + 1, _ =>
          exact hc (List.get?_mem (by simpa using hjc))
      · unfold takeToLast
        rw [if_neg hc, if_pos rfl]
        rfl

theorem opensBracket_cons_succ (c : Char) (l : List Char) (i : Nat) :
    opensBracket (c :: l) (i + 1) ↔ opensBracket l i := by
  unfold opensBracket
  rw [List.get?_cons_succ]
  constructor
  · rintro (⟨h1, j, hj, hjc⟩ | ⟨h1, j, hj, hjc⟩)
    · match j, hj with
      | j' + 1, hj =>
        exact Or.inl ⟨h1, j', by omega, by simpa using hjc⟩
    · match j, hj with
      | j' + 1, hj =>
        exact Or.inr ⟨h1, j', by omega, by simpa using hjc⟩
  · rintro (⟨h1, j, hj, hjc⟩ | ⟨h1, j, hj, hjc⟩)
    · exact Or.inl ⟨h1, j + 1, by omega, by simpa using hjc⟩
    · exact Or.inr ⟨h1, j + 1, by omega, by simpa using hjc⟩

theorem opensBracket_cons_zero (c : Char) (l : List Char) :
    opensBracket (c :: l) 0 ↔ (c = '[' ∧ ']' ∈ l) ∨ (c = lbrace ∧ rbrace ∈ l) := by
  unfold opensBracket
  rw [List.get?_cons_zero]
  constructor
  · rintro (⟨h1, j, hj, hjc⟩ | ⟨h1, j, hj, hjc⟩)
    · refine Or.inl ⟨Option.some.inj h1, ?_⟩
      match j, hj with
      | j' + 1, _ => exact List.get?_mem (by simpa using hjc)
    · refine Or.inr ⟨Option.some.inj h1, ?_⟩
      match j, hj with
      | j' + 1, _ => exact List.get?_mem (by simpa using hjc)
  · rintro (⟨rfl, h2⟩ | ⟨rfl, h2⟩)
    · obtain ⟨n, hn⟩ := List.mem_iff_get?.mp h2
      exact Or.inl ⟨rfl, n + 1, by omega, by simpa using hn⟩
    · obtain ⟨n, hn⟩ := List.mem_iff_get?.mp h2
      exact Or.inr ⟨rfl, n + 1, by omega, by simpa using hn⟩

theorem findSpan_eq_none : ∀ {l : List Char}, (∀ i, ¬ opensBracket l i) →
    findSpan l = none := by
  intro l
  induction l with
  | nil => intro _; rfl
  | cons c rest ih =>
    intro h
    have h0 := h 0
    rw [opensBracket_cons_zero, not_or] at h0
    show (if c = '[' ∧ ']' ∈ rest then some ('[' :: takeToLast ']' rest)
      else if c = lbrace ∧ rbrace ∈ rest then some (lbrace :: takeToLast rbrace rest)
      else findSpan rest) = none
    rw [if_neg h0.1, if_neg h0.2]
    exact ih (fun i hi => h (i + 1) ((opensBracket_cons_succ c rest i).mpr hi))

theorem findSpan_at_least : ∀ {l : List Char} {i : Nat},
    opensBracket l i → (∀ i', opensBracket l i' → i ≤ i') →
    ∃ op k, l.get? i = some op ∧ (op = '[' ∨ op = lbrace) ∧ i < k ∧
      l.get? k = some (closerOf op) ∧
      (∀ j, k < j → l.get? j ≠ some (closerOf op)) ∧
      findSpan l = some ((l.drop i).take (k + 1 - i)) := by
  intro l
  induction l with
  | nil =>
    intro i hi _
    rcases hi with ⟨h, -⟩ | ⟨h, -⟩ <;> exact Option.noConfusion h
  | cons c rest ih =>
    intro i hi hmin
    cases i with
    | zero =>
      rw [opensBracket_cons_zero] at hi
      rcases hi with ⟨rfl, hmem⟩ | ⟨rfl, hmem⟩
      · obtain ⟨k, h1, h2, h3⟩ := takeToLast_spec ']' rest hmem
        refine ⟨'[', k + 1, rfl, Or.inl rfl, by omega, ?_, ?_, ?_⟩
        · rw [show closerOf '[' = ']' from rfl, List.get?_cons_succ]
          exact h1
        · intro j hj
          match j, hj with
          | j' + 1, hj =>
            rw [show closerOf '[' = ']' from rfl, List.get?_cons_succ]
            exact h2 j' (by omega)
        · show (if ('[' : Char) = '[' ∧ ']' ∈ rest then some ('[' :: takeToLast ']' rest)
            else if ('[' : Char) = lbrace ∧ rbrace ∈ rest then
              some (lbrace :: takeToLast rbrace rest)
            else findSpan rest) = _
          rw [if_pos ⟨rfl, hmem⟩, h3]
          rfl
      · obtain ⟨k, h1, h2, h3⟩ := takeToLast_spec rbrace rest hmem
        refine ⟨lbrace, k + 1, rfl, Or.inr rfl, by omega, ?_, ?_, ?_⟩
        · rw [show closerOf lbrace = rbrace from rfl, List.get?_cons_succ]
          exact h1
        · intro j hj
          match j, hj with
          | j' + 1, hj =>
            rw [show closerOf lbrace = rbrace from rfl, List.get?_cons_succ]
            exact h2 j' (by omega)
        · show (if lbrace = '[' ∧ ']' ∈ rest then some ('[' :: takeToLast ']' rest)
            else if lbrace = lbrace ∧ rbrace ∈ rest then
              some (lbrace :: takeToLast rbrace rest)
            else findSpan rest) = _
          rw [if_neg (fun hp => absurd hp.1 (by decide)), if_pos ⟨rfl, hmem⟩, h3]
          rfl
    | succ i' =>
      have hi' := (opensBracket_cons_succ c rest i').mp hi
      have hmin' : ∀ i'', opensBracket rest i'' → i' ≤ i'' := fun i'' h'' =>
        Nat.le_of_succ_le_succ (hmin (i'' + 1) ((opensBracket_cons_succ c rest i'').mpr h''))
      obtain ⟨op, k, h1, h2, h3, h4, h5, h6⟩ := ih hi' hmin'
      have hnot0 : ¬ opensBracket (c :: rest) 0 := fun h0 => by
        have := hmin 0 h0
        omega
      rw [opensBracket_cons_zero, not_or] at hnot0
      refine ⟨op, k + 1, by simpa using h1, h2, by omega, by simpa using h4, ?_, ?_⟩
      · intro j hj
        match j, hj with
        | j'' + 1, hj =>
          rw [List.get?_cons_succ]
          exact h5 j'' (by omega)
      · show (if c = '[' ∧ ']' ∈ rest then some ('[' :: takeToLast ']' rest)
          else if c = lbrace ∧ rbrace ∈ rest then some (lbrace :: takeToLast rbrace rest)
          else findSpan rest) = _
        rw [if_neg hnot0.1, if_neg hnot0.2, h6, List.drop_succ_cons,
          show k + 1 + 1 - (i' + 1) = k + 1 - i' from by omega]

/-! ## Claims -/

/-- C1.  The claim says every record returned by the three parse
functions has its kind's mandatory fields present and non-empty,
including fallback records.  This fails for the coding kind: on
unparsable text (`json.loads` raises, `loadsNone`), `_parse_coding`
returns `_generate_fallback_coding`'s records, which carry
`function_name`/`test_input`/`expected_output` and have no `input` or
`output` field at all — contradicting the spec's assertion that each
placeholder passes its own mandatory-field check, the schema used by
`_parse_coding`'s own validation, and the benchmark's
`_score_coding_quality`, which checks `input`/`output`. -/
theorem C1_fallback_coding_missing_mandatory_fields :
    parse_coding loadsNone "no json here" "algebra" "easy" 1 = .ok [recFallbackCoding] ∧
    recGet recFallbackCoding "input" = none ∧
    recGet recFallbackCoding "output" = none :=
  ⟨rfl, rfl, rfl⟩

/-- C2.  The claim says the recovery pipeline never raises for any
input, including arrays whose element fields hold values of any JSON
type.  It fails: on `rawNumQ` (a JSON array whose element's `question`
is the number `5`), `_parse_coding` calls `.strip()` on an `int` and
the resulting `AttributeError` is not caught by its
`except (json.JSONDecodeError, ValueError)` clause, so the exception
escapes to the caller. -/
theorem C2_parse_coding_raises_attribute_error :
    parse_coding loadsNumQ rawNumQ "t" "easy" 2 =
      .error "AttributeError: object has no attribute strip" := rfl

/-- C3 counterexample.  The claim says a non-success service status is
treated as empty raw text flowing into the fallback path, with no
exception reaching the generation caller.  In fact `_call_ollama`
raises `Exception("Ollama returned 500")`, re-raises it in its own
handler, and `generate_mcq` has no handler, so the error propagates. -/
theorem C3_counterexample_http_error_propagates :
    generate_mcq loadsNone (.completed ⟨500, ""⟩) "t" "easy" 1 =
      .error "Ollama returned 500" := rfl

/-- C3 amended: when the completion service responds with a non-200
status or times out, `_call_ollama` raises and the exception propagates
through each generation entry point to the caller; the response is not
treated as empty text and the fallback path is not taken. -/
theorem C3_service_failure_propagates (loads : String → Option Json)
    (topic difficulty : String) (count : Nat) :
    (∀ r : HttpResponse, r.status_code ≠ 200 →
      generate_mcq loads (.completed r) topic difficulty count =
        .error ("Ollama returned " ++ toString r.status_code) ∧
      generate_fillup loads (.completed r) topic difficulty count =
        .error ("Ollama returned " ++ toString r.status_code) ∧
      generate_coding loads (.completed r) topic difficulty count =
        .error ("Ollama returned " ++ toString r.status_code)) ∧
    (generate_mcq loads .timedOut topic difficulty count =
        .error "requests.exceptions.Timeout" ∧
     generate_fillup loads .timedOut topic difficulty count =
        .error "requests.exceptions.Timeout" ∧
     generate_coding loads .timedOut topic difficulty count =
        .error "requests.exceptions.Timeout") := by
  refine ⟨fun r hr => ?_, rfl, rfl, rfl⟩
  have hc : call_ollama (.completed r) = .error ("Ollama returned " ++ toString r.status_code) := by
    simp [call_ollama, hr]
  exact ⟨by simp [generate_mcq, hc, Except.map],
         by simp [generate_fillup, hc, Except.map],
         by simp [generate_coding, hc, Except.bind]⟩

/-- Witness for the C3 theorem at a concrete non-200 response. -/
theorem C3_witness :
    (404 : Nat) ≠ 200 ∧
    generate_fillup loadsNone (.completed ⟨404, "x"⟩) "t" "easy" 2 =
      .error "Ollama returned 404" :=
  ⟨by decide,
   ((C3_service_failure_propagates loadsNone "t" "easy" 2).1 ⟨404, "x"⟩ (by decide)).2.1⟩

/-- C4 counterexample.  The claim says a parsed coding element that
omits `time_limit_seconds` gets the difficulty default (300 for
"hard").  In fact `_parse_coding` reads
`q.get("time_limit_seconds", 120)` — a constant 120 — so under
difficulty "hard" the kept record carries 120, not 300. -/
theorem C4_counterexample_parse_default_ignores_difficulty :
    parseCodingJson "t" "hard" 3 (some jsonCodingNoLimit) = .ok [recCodingNoLimit] ∧
    recGet recCodingNoLimit "time_limit_seconds" = some (.num 120) ∧
    recGet recCodingNoLimit "time_limit_seconds" ≠ some (.num 300) := by
  refine ⟨rfl, rfl, fun h => ?_⟩
  rw [show recGet recCodingNoLimit "time_limit_seconds" = some (.num 120) from rfl] at h
  simp at h

/-- C4 amended: a coding element kept by `_parse_coding` whose source
omits `time_limit_seconds` gets the constant default 120 regardless of
difficulty; only `_generate_fallback_coding`'s records use the
difficulty table (easy=120, medium=180, hard=300, otherwise 120). -/
theorem C4_time_limit_defaults (topic difficulty : String) (i : Nat)
    (q : List (String × Json)) (v : Record) (c : Nat) :
    (validatedCoding topic difficulty i q = .ok v →
      dictHas q "time_limit_seconds" = false →
      recGet v "time_limit_seconds" = some (.num 120)) ∧
    (∀ r ∈ fallbackCoding topic difficulty c,
      recGet r "time_limit_seconds" = some (.num (timeLimits difficulty))) ∧
    timeLimits "easy" = 120 ∧ timeLimits "medium" = 180 ∧ timeLimits "hard" = 300 := by
  refine ⟨fun hv hh => ?_, fun r hr => (fallbackCoding_fields hr).2.1, rfl, rfl, rfl⟩
  obtain ⟨a, b, c', e, g, rfl⟩ := validatedCoding_ok_shape hv
  show some (dictGet q "time_limit_seconds" (.num 120)) = some (.num 120)
  rw [dictGet_of_not_has hh]

/-- C5 counterexample.  The claim says the parse result is a list of
length ≥ 1 for any raw text; for the coding kind this fails, since on
`rawNullInput` (element with a `null` `input` field) `_parse_coding`
raises `AttributeError` and returns nothing at all. -/
theorem C5_counterexample_no_list_on_exception :
    parse_coding loadsNullInput rawNullInput "t" "easy" 2 =
      .error "AttributeError: object has no attribute strip" := rfl

/-- C5 amended: for the MCQ and fillup kinds, every call (count ≥ 1)
returns a list of length ≥ 1; for the coding kind the same bounds hold
whenever the call returns normally (it may instead raise on non-string
text fields), and the length never exceeds `count` (kept elements are
truncated to the first `count`); fallback lists have exactly `count`
records; the MCQ and fillup kinds return all kept elements with no
truncation. -/
theorem C5_result_lengths (loads : String → Option Json)
    (raw topic difficulty : String) (count : Nat) (hc : 1 ≤ count) :
    1 ≤ (parse_mcq loads raw topic difficulty count).length ∧
    1 ≤ (parse_fillup loads raw topic difficulty count).length ∧
    (∀ l, parse_coding loads raw topic difficulty count = .ok l →
      1 ≤ l.length ∧ l.length ≤ count) ∧
    ((fallbackMcq topic difficulty count).length = count ∧
     (fallbackFillup topic difficulty count).length = count ∧
     (fallbackCoding topic difficulty count).length = count) ∧
    (∀ l, mcqLoop topic difficulty 1 l ≠ [] →
      parseMcqJson topic difficulty count (some (.arr l)) =
        mcqLoop topic difficulty 1 l) ∧
    (∀ l, fillupLoop topic difficulty 1 l ≠ [] →
      parseFillupJson topic difficulty count (some (.arr l)) =
        fillupLoop topic difficulty 1 l) ∧
    (∀ l valid, codingLoop topic difficulty 1 l = .ok valid → valid ≠ [] →
      parseCodingJson topic difficulty count (some (.arr l)) =
        .ok (valid.take count)) := by
  refine ⟨parseMcqJson_length topic difficulty hc _,
          parseFillupJson_length topic difficulty hc _,
          fun l h => parseCodingJson_ok_length topic difficulty hc _ h,
          ⟨fallbackMcq_length .., fallbackFillup_length .., fallbackCoding_length ..⟩,
          fun l hne => ?_, fun l hne => ?_, fun l valid hloop hne => ?_⟩
  · simp only [parseMcqJson]
    split
    · rename_i he
      exact absurd (List.isEmpty_iff.mp he) hne
    · rfl
  · simp only [parseFillupJson]
    split
    · rename_i he
      exact absurd (List.isEmpty_iff.mp he) hne
    · rfl
  · simp only [parseCodingJson, hloop]
    split
    · rename_i he
      exact absurd (List.isEmpty_iff.mp he) hne
    · rfl

/-- Witness for the C5 theorem at a concrete call. -/
theorem C5_witness :
    1 ≤ 1 ∧ 1 ≤ (parse_mcq loadsNone "x" "t" "e" 1).length :=
  ⟨by decide, (C5_result_lengths loadsNone "x" "t" "e" 1 (by decide)).1⟩

/-- C9: every record returned by any parse or fallback path carries
`type` equal to the requested kind constant ("mcq", "fillup" or
"coding"), regardless of any `type` value in the source element. -/
theorem C9_type_is_kind_constant (loads : String → Option Json)
    (raw topic difficulty : String) (count : Nat) :
    (∀ r ∈ parse_mcq loads raw topic difficulty count,
      recGet r "type" = some (.str "mcq")) ∧
    (∀ r ∈ parse_fillup loads raw topic difficulty count,
      recGet r "type" = some (.str "fillup")) ∧
    (∀ l, parse_coding loads raw topic difficulty count = .ok l →
      ∀ r ∈ l, recGet r "type" = some (.str "coding")) :=
  ⟨parseMcqJson_type topic difficulty count (loads (extract_json raw)),
   parseFillupJson_type topic difficulty count (loads (extract_json raw)),
   fun _ h => parseCodingJson_type topic difficulty count (loads (extract_json raw)) h⟩

/-- Witness for the C9 theorem at a concrete fallback record. -/
theorem C9_witness :
    recGet mcqWitnessRec "type" = some (Json.str "mcq") :=
  (C9_type_is_kind_constant loadsNone "x" "t" "e" 1).1 mcqWitnessRec
    (by rw [show parse_mcq loadsNone "x" "t" "e" 1 = [mcqWitnessRec] from rfl]
        exact List.mem_singleton.mpr rfl)

/-- Witness for the C4 theorem at a concrete element omitting
`time_limit_seconds` under difficulty "hard". -/
theorem C4_witness :
    dictHas [("question", Json.str "q"), ("input", Json.str "i"),
             ("output", Json.str "o")] "time_limit_seconds" = false ∧
    recGet recCodingNoLimit "time_limit_seconds" = some (.num 120) :=
  ⟨rfl,
   (C4_time_limit_defaults "t" "hard" 1
      [("question", Json.str "q"), ("input", Json.str "i"), ("output", Json.str "o")]
      recCodingNoLimit 1).1 rfl rfl⟩

/-- C7 counterexample.  The claim says Stage C keeps an element iff its
mandatory fields are non-empty and silently drops failing elements, for
every successfully parsed JSON array.  For the coding kind this fails:
on an array whose element holds a boolean `question`, `_parse_coding`
raises `AttributeError` instead of dropping the element. -/
theorem C7_counterexample_raises_instead_of_dropping :
    parseCodingJson "t" "easy" 1 (some jsonBoolQ) =
      .error "AttributeError: object has no attribute strip" := rfl

/-- C7 amended: for every parsed array, the kept records are exactly the
in-order `filterMap` of the per-element validation step over the
1-based enumeration (keep iff the kind's mandatory fields are truthy,
non-objects and failing elements silently dropped, order preserved) —
unconditionally for MCQ and fillup, and for coding provided every
element's five text fields are strings or absent (otherwise the call
raises); each built record's `id` is the source `id` when the key is
present and otherwise the element's 1-based position. -/
theorem C7_keep_drop_order_id (topic difficulty : String) (i : Nat)
    (f : List (String × Json)) (a b c e g : Json) :
    (∀ l, mcqLoop topic difficulty 1 l =
      (List.enumFrom 1 l).filterMap (mcqStep topic difficulty)) ∧
    (∀ l, fillupLoop topic difficulty 1 l =
      (List.enumFrom 1 l).filterMap (fillupStep topic difficulty)) ∧
    (∀ l, (∀ j ∈ l, codingTextOk j) →
      codingLoop topic difficulty 1 l =
        .ok ((List.enumFrom 1 l).filterMap (codingStep topic difficulty))) ∧
    mcqKeep (validatedMcq topic difficulty i f) =
      ((dictGet f "question" (.str "")).truthy &&
       (dictGet f "options" (.obj [])).truthy) ∧
    fillupKeep (validatedFillup topic difficulty i f) =
      ((dictGet f "question" (.str "")).truthy &&
       (dictGet f "correct_word" (.str "")).truthy) ∧
    codingKeep (codingRecord topic difficulty i f a b c e g) =
      (a.truthy && b.truthy && c.truthy) ∧
    recGet (validatedMcq topic difficulty i f) "id" =
      some (dictGet f "id" (.num i)) ∧
    recGet (validatedFillup topic difficulty i f) "id" =
      some (dictGet f "id" (.num i)) ∧
    recGet (codingRecord topic difficulty i f a b c e g) "id" =
      some (dictGet f "id" (.num i)) ∧
    (dictHas f "id" = false → dictGet f "id" (.num i) = .num i) :=
  ⟨fun l => mcqLoop_eq_filterMap topic difficulty l 1,
   fun l => fillupLoop_eq_filterMap topic difficulty l 1,
   fun l h => codingLoop_eq_filterMap topic difficulty l h 1,
   rfl, rfl, rfl, rfl, rfl, rfl, fun h => dictGet_of_not_has h⟩

/-- Witness for the C7 theorem: the coding conjunct applied to a
concrete strip-safe one-element array. -/
theorem C7_witness :
    (∀ j ∈ [Json.obj [("question", Json.str "q")]], codingTextOk j) ∧
    codingLoop "t" "e" 1 [Json.obj [("question", Json.str "q")]] =
      .ok ((List.enumFrom 1 [Json.obj [("question", Json.str "q")]]).filterMap
        (codingStep "t" "e")) := by
  have hok : ∀ j ∈ [Json.obj [("question", Json.str "q")]], codingTextOk j := by
    intro j hj f' hf'
    rw [List.mem_singleton.mp hj] at hf'
    injection hf' with hf'
    subst hf'
    exact ⟨⟨"q", rfl⟩, ⟨"", rfl⟩, ⟨"", rfl⟩, ⟨"", rfl⟩, ⟨"", rfl⟩⟩
  exact ⟨hok,
    (C7_keep_drop_order_id "t" "e" 1 [] .null .null .null .null .null).2.2.1
      [Json.obj [("question", Json.str "q")]] hok⟩

/-- C8 counterexample.  The claim says every MCQ record's
`correct_answer` is one of its own option labels.  `_parse_mcq` never
validates this: an element with options labelled only "B" and no
`correct_answer` field is kept with the default `correct_answer` "A",
which is not a label of its options. -/
theorem C8_counterexample_correct_answer_not_a_label :
    parseMcqJson "t" "easy" 1 (some jsonMcqNoAnswer) = [recMcqNoAnswer] ∧
    recGet recMcqNoAnswer "correct_answer" = some (.str "A") ∧
    optionKeys recMcqNoAnswer = ["B"] ∧
    ¬ correctAnswerIsLabel recMcqNoAnswer := by
  refine ⟨rfl, rfl, rfl, ?_⟩
  rintro ⟨s, hs, hmem⟩
  have h0 : (some (Json.str "A") : Option Json) = some (.str s) := by
    rw [← hs]
    rfl
  have h1 : Json.str "A" = Json.str s := Option.some.inj h0
  injection h1 with h1
  subst h1
  rw [show optionKeys recMcqNoAnswer = ["B"] from rfl] at hmem
  exact absurd hmem (by decide)

/-- C8 amended: fallback MCQ records do satisfy the invariant
(`correct_answer` "A" is among their labels A–D), but records kept from
parsed elements carry `correct_answer` exactly as provided by the
source (default "A") with no validation against their own options, so
the invariant can fail for parsed records. -/
theorem C8_correct_answer_membership (topic difficulty : String) (c i : Nat)
    (q : List (String × Json)) :
    (∀ r ∈ fallbackMcq topic difficulty c, correctAnswerIsLabel r) ∧
    recGet (validatedMcq topic difficulty i q) "correct_answer" =
      some (dictGet q "correct_answer" (.str "A")) := by
  refine ⟨fun r hr => ?_, rfl⟩
  obtain ⟨-, hca, hok⟩ := fallbackMcq_fields hr
  exact ⟨"A", hca, by rw [hok]; decide⟩

/-- Witness for the C8 theorem at a concrete fallback record. -/
theorem C8_witness : correctAnswerIsLabel mcqWitnessRec :=
  (C8_correct_answer_membership "t" "e" 1 1 []).1 mcqWitnessRec
    (by rw [show fallbackMcq "t" "e" 1 = [mcqWitnessRec] from rfl]
        exact List.mem_singleton.mpr rfl)

/-- C10: the MCQ and fillup mandatory-field checks do not trim — a
whitespace-only `question` (MCQ) or `correct_word` (fillup) is truthy,
so the element is kept — while the coding kind strips its text fields
before the check, so a whitespace-only `question` makes the element be
dropped. -/
theorem C10_trim_only_for_coding (topic difficulty : String) (s : String)
    (hws : s.toList.all isPySpace = true) (hne : s ≠ "") :
    mcqLoop topic difficulty 1
        [.obj [("question", .str s), ("options", .obj [("A", .str "x")])]] =
      [validatedMcq topic difficulty 1
        [("question", .str s), ("options", .obj [("A", .str "x")])]] ∧
    fillupLoop topic difficulty 1
        [.obj [("question", .str "q"), ("correct_word", .str s)]] =
      [validatedFillup topic difficulty 1
        [("question", .str "q"), ("correct_word", .str s)]] ∧
    codingLoop topic difficulty 1
        [.obj [("question", .str s), ("input", .str "x"), ("output", .str "x")]] =
      .ok [] := by
  have hsne : (s != "") = true := bne_iff_ne.mpr hne
  refine ⟨?_, ?_, ?_⟩
  · have hk : mcqKeep (validatedMcq topic difficulty 1
        [("question", .str s), ("options", .obj [("A", .str "x")])]) = true := by
      show ((s != "") && true) = true
      rw [hsne]
      rfl
    simp [mcqLoop, hk]
  · have hk : fillupKeep (validatedFillup topic difficulty 1
        [("question", .str "q"), ("correct_word", .str s)]) = true := by
      show (true && (s != "")) = true
      rw [hsne]
      rfl
    simp [fillupLoop, hk]
  · have hv : validatedCoding topic difficulty 1
        [("question", .str s), ("input", .str "x"), ("output", .str "x")] =
        .ok (codingRecord topic difficulty 1
          [("question", .str s), ("input", .str "x"), ("output", .str "x")]
          (.str (pyStrip s)) (.str "x") (.str "x") (.str "") (.str "")) := rfl
    have hk : codingKeep (codingRecord topic difficulty 1
        [("question", .str s), ("input", .str "x"), ("output", .str "x")]
        (.str (pyStrip s)) (.str "x") (.str "x") (.str "") (.str "")) = false := by
      show (((pyStrip s != "") && (Json.str "x").truthy) && (Json.str "x").truthy) = false
      rw [pyStrip_of_all_space hws]
      rfl
    simp [codingLoop, hv, hk]

/-- Witness for the C10 theorem at the one-space string. -/
theorem C10_witness :
    (" ".toList.all isPySpace = true) ∧ (" " ≠ "") ∧
    codingLoop "t" "e" 1
        [.obj [("question", .str " "), ("input", .str "x"), ("output", .str "x")]] =
      .ok [] :=
  ⟨by decide, by decide,
   (C10_trim_only_for_coding "t" "e" " " (by decide) (by decide)).2.2⟩

/-- C6 counterexample.  The claim says Stage A returns the first
`[...]` span and falls back to the first brace span only when no array
span exists.  In fact the regex takes whichever bracketed span opens
first: on text with an object followed by an array, it returns the
object span, not the array span. -/
theorem C6_counterexample_object_before_array :
    extract_json rawObjThenArr = "\x7b\"a\": 1\x7d" ∧
    extract_json rawObjThenArr ≠ "[2]" := by
  refine ⟨rfl, fun h => ?_⟩
  rw [show extract_json rawObjThenArr = "\x7b\"a\": 1\x7d" from rfl] at h
  exact absurd h (by decide)

/-- C6 amended: `_extract_json` first removes every ```` ```json ````
and then every ```` ``` ```` fence (each with trailing whitespace);
in the remaining text it returns the bracketed span whose opening
bracket occurs earliest — a `[` with a later `]` or a brace with a
later closing brace, whichever position comes first, regardless of
kind — taken maximally up to the last closing bracket of that kind;
when no such span exists it returns the whole stripped text trimmed. -/
theorem C6_extract_json_span (raw : String) :
    ((∀ i, ¬ opensBracket (stripFences raw.toList) i) →
      extract_json raw = pyStrip (stripFences raw.toList).asString) ∧
    (∀ i, opensBracket (stripFences raw.toList) i →
      (∀ i', opensBracket (stripFences raw.toList) i' → i ≤ i') →
      ∃ op k, (stripFences raw.toList).get? i = some op ∧
        (op = '[' ∨ op = lbrace) ∧ i < k ∧
        (stripFences raw.toList).get? k = some (closerOf op) ∧
        (∀ j, k < j → (stripFences raw.toList).get? j ≠ some (closerOf op)) ∧
        extract_json raw =
          (((stripFences raw.toList).drop i).take (k + 1 - i)).asString) := by
  constructor
  · intro h
    unfold extract_json
    rw [findSpan_eq_none h]
  · intro i hi hmin
    obtain ⟨op, k, h1, h2, h3, h4, h5, h6⟩ := findSpan_at_least hi hmin
    refine ⟨op, k, h1, h2, h3, h4, h5, ?_⟩
    unfold extract_json
    rw [h6]

/-- Witness for the C6 theorem on the array text `"[1]"`, whose least
opening position is 0. -/
theorem C6_witness :
    opensBracket (stripFences "[1]".toList) 0 ∧
    (∃ op k, (stripFences "[1]".toList).get? 0 = some op ∧
      (op = '[' ∨ op = lbrace) ∧ 0 < k ∧
      (stripFences "[1]".toList).get? k = some (closerOf op) ∧
      (∀ j, k < j → (stripFences "[1]".toList).get? j ≠ some (closerOf op)) ∧
      extract_json "[1]" =
        (((stripFences "[1]".toList).drop 0).take (k + 1 - 0)).asString) := by
  have h0 : opensBracket (stripFences "[1]".toList) 0 :=
    Or.inl ⟨rfl, 2, by omega, rfl⟩
  exact ⟨h0, (C6_extract_json_span "[1]").2 0 h0 (fun i' _ => Nat.zero_le i')⟩

end AllyieModel
